import Mathlib

/-!
Verification of the VAD-based segmentation and extraction engine of the
korean_audio_processing_pipeline repository, embedded from
`src/split_audio_v4.py` (class `SplitAudio`).

Times are modelled as rationals.  Python's `round(x, 3)` is modelled by
`round3`; the two agree everywhere except on exact half-millisecond ties
(Python rounds those half-to-even), and no statement below exercises a tie:
all values fed to `round3` in the pipeline are exact multiples of 1/1000,
where both are the identity.
-/

namespace KoreanAudio

/-- `round(x, 3)` from the source: round to millisecond precision. -/
def round3 (q : ℚ) : ℚ := (round (q * 1000) : ℤ) / 1000

/-- `q` is an exact multiple of 1/1000 (millisecond-aligned). -/
def isMs (q : ℚ) : Prop := (q * 1000).den = 1

instance (q : ℚ) : Decidable (isMs q) := by unfold isMs; infer_instance

/-- One `(start_sec, end_sec, duration_sec)` tuple of the source
(`RawSegment`/`MergedSegment`); the `end` field is called `stop`. -/
structure Seg where
  start : ℚ
  stop : ℚ
  dur : ℚ
  deriving DecidableEq, Repr

/-- The fold performed by `merge_segments` when it extends the previous
merged segment to the current segment's end
(`src/split_audio_v4.py:172-176` and `184-188`). -/
def foldLast (a b : Seg) : Seg :=
  ⟨round3 a.start, round3 b.stop, round3 (b.stop - a.start)⟩

/-- The forward pass of `merge_segments` (`src/split_audio_v4.py:167-178`):
`cur` is the current last element of the accumulator `merged`; when its
stored duration is below `min_len` the next segment is folded into it,
otherwise it becomes final and the next segment starts a new accumulator. -/
def mergeForward (minLen : ℚ) : Seg → List Seg → List Seg
  | cur, [] => [cur]
  | cur, s :: rest =>
    if cur.dur < minLen then
      mergeForward minLen (foldLast cur s) rest
    else
      cur :: mergeForward minLen s rest

/-- The tail step of `merge_segments` (`src/split_audio_v4.py:181-188`):
if more than one merged segment exists and the last one is still below
`min_len`, pop it and fold it into the new last segment. -/
def mergeTail (minLen : ℚ) : List Seg → List Seg
  | [] => []
  | [a] => [a]
  | [a, b] => if b.dur < minLen then [foldLast a b] else [a, b]
  | a :: b :: c :: rest => a :: mergeTail minLen (b :: c :: rest)

/-- `SplitAudio.merge_segments` (`src/split_audio_v4.py:160-191`). -/
def mergeSegments (minLen : ℚ) : List Seg → List Seg
  | [] => []
  | s :: rest => mergeTail minLen (mergeForward minLen s rest)

/-- Configuration of the segmentation state machine, as cached by
`SplitAudio.__init__`: `minSilenceFrames = min_silence_ms // frame_duration`,
`frameDuration` in ms, `minSegmentMs` the stream-tail duration threshold. -/
structure VadConfig where
  minSilenceFrames : ℕ
  frameDuration : ℕ
  minSegmentMs : ℚ
  deriving DecidableEq, Repr

/-- `__init__`'s derived fields (`src/split_audio_v4.py:48`):
`self.min_silence_frames = self.min_silence_ms // self.frame_duration`. -/
def mkVadConfig (minSilenceMs frameDuration : ℕ) (minSegmentMs : ℚ) : VadConfig :=
  ⟨minSilenceMs / frameDuration, frameDuration, minSegmentMs⟩

/-- `frame_duration_sec = self.frame_duration / 1000`. -/
def VadConfig.frameSec (cfg : VadConfig) : ℚ := (cfg.frameDuration : ℚ) / 1000

/-- The loop state of `split_audio_vad` (`src/split_audio_v4.py:120-124`). -/
structure VadState where
  info : List Seg
  currentTime : ℚ
  silenceFrames : ℕ
  segmentStart : Option ℚ
  deriving DecidableEq, Repr

/-- `info = []`, `current_time = 0.0`, `silence_frames = 0`,
`segment_start = None`. -/
def initState : VadState := ⟨[], 0, 0, none⟩

/-- One iteration of the frame loop of `split_audio_vad`
(`src/split_audio_v4.py:127-148`) on a classified full-size frame.
Short tail frames are skipped by the source (`continue`) without advancing
`current_time`, so the frame stream is a `List Bool` of the full-size
frames' `vad.is_speech` verdicts. -/
def vadStep (cfg : VadConfig) (st : VadState) (isSpeech : Bool) : VadState :=
  if isSpeech then
    { info := st.info
      currentTime := st.currentTime + cfg.frameSec
      silenceFrames := 0
      segmentStart := some (st.segmentStart.getD st.currentTime) }
  else
    match st.segmentStart with
    | some segStart =>
      if cfg.minSilenceFrames ≤ st.silenceFrames + 1 then
        { info := st.info ++
            (if 1/5 ≤ round3 (st.currentTime - ((st.silenceFrames + 1 : ℕ) : ℚ) * cfg.frameSec - segStart) then
              [⟨round3 segStart,
                round3 (st.currentTime - ((st.silenceFrames + 1 : ℕ) : ℚ) * cfg.frameSec),
                round3 (st.currentTime - ((st.silenceFrames + 1 : ℕ) : ℚ) * cfg.frameSec - segStart)⟩]
             else [])
          currentTime := st.currentTime + cfg.frameSec
          silenceFrames := st.silenceFrames + 1
          segmentStart := none }
      else
        { st with
            currentTime := st.currentTime + cfg.frameSec
            silenceFrames := st.silenceFrames + 1 }
    | none =>
      { st with
          currentTime := st.currentTime + cfg.frameSec
          silenceFrames := st.silenceFrames + 1 }

/-- The trailing-segment handling of `split_audio_vad`
(`src/split_audio_v4.py:150-155`): a segment still open at end of stream is
closed at the final `current_time` and kept iff its duration is at least
`min_segment_ms / 1000`. -/
def vadFinish (cfg : VadConfig) (st : VadState) : List Seg :=
  match st.segmentStart with
  | some segStart =>
    if cfg.minSegmentMs / 1000 ≤ round3 (st.currentTime - segStart) then
      st.info ++ [⟨round3 segStart, round3 st.currentTime, round3 (st.currentTime - segStart)⟩]
    else st.info
  | none => st.info

/-- `SplitAudio.split_audio_vad` (`src/split_audio_v4.py:111-158`) on the
classified stream of full-size frames. -/
def splitAudioVad (cfg : VadConfig) (frames : List Bool) : List Seg :=
  vadFinish cfg (frames.foldl (vadStep cfg) initState)

/-- One manifest row (`src/split_audio_v4.py:274`); the `segment_file`
name `{segment_name}_{i+1}.{ext}` is represented by its 1-based numeric
suffix `idx`; the constant folder/stem strings are dropped. -/
structure Row where
  idx : ℕ
  start : ℚ
  stop : ℚ
  dur : ℚ
  deriving DecidableEq, Repr

/-- The row appended to `segment_data` for segment number `i` (0-based). -/
def rowOf (i : ℕ) (s : Seg) : Row := ⟨i + 1, s.start, s.stop, s.dur⟩

/-- `SplitAudio.cut_segments_batch` (`src/split_audio_v4.py:193-240`):
one batched FFmpeg call writes every file of the batch when it succeeds
(`batchOk`); on `ffmpeg.Error` it falls back to `cut_single_segment` per
range, and a range's file exists iff its own call succeeds (`singleOk`) —
`cut_single_segment` swallows its `ffmpeg.Error`, producing no file.
Returned are the 1-based indices of the written segment files. -/
def cutSegmentsBatch (batchOk : Bool) (singleOk : ℕ → Bool) (batch : List (ℕ × Seg)) : List ℕ :=
  if batchOk then batch.map (fun p => p.1 + 1)
  else (batch.filter (fun p => singleOk p.1)).map (fun p => p.1 + 1)

/-- The loop of `SplitAudio.cut_audio` (`src/split_audio_v4.py:263-283`):
per segment, the manifest row is appended to `segment_data` unconditionally
and the segment joins the pending batch; a full batch is flushed through
`cut_segments_batch`, and the remaining partial batch is flushed at the
end.  `batchOk n` tells whether the `n`-th batched FFmpeg call succeeds. -/
def cutAudioGo (batchSize : ℕ) (batchOk singleOk : ℕ → Bool) :
    ℕ → List (ℕ × Seg) → List ℕ → List Row → List (ℕ × Seg) → List ℕ × List Row
  | batchNo, pending, files, rows, [] =>
    if pending.isEmpty then (files, rows)
    else (files ++ cutSegmentsBatch (batchOk batchNo) singleOk pending, rows)
  | batchNo, pending, files, rows, (i, s) :: rest =>
    if batchSize ≤ (pending ++ [(i, s)]).length then
      cutAudioGo batchSize batchOk singleOk (batchNo + 1) []
        (files ++ cutSegmentsBatch (batchOk batchNo) singleOk (pending ++ [(i, s)]))
        (rows ++ [rowOf i s]) rest
    else
      cutAudioGo batchSize batchOk singleOk batchNo (pending ++ [(i, s)]) files
        (rows ++ [rowOf i s]) rest

/-- `SplitAudio.cut_audio` (`src/split_audio_v4.py:253-294`): returns the
1-based indices of the written segment files and the manifest rows written
to `{segment_name}_all.csv` (header row aside). -/
def cutAudio (batchSize : ℕ) (batchOk singleOk : ℕ → Bool) (segments : List Seg) :
    List ℕ × List Row :=
  cutAudioGo batchSize batchOk singleOk 0 [] [] [] segments.enum

/-- The manifest contents as enumeration of the segment list: row `i`
carries segment `i` and file suffix `i + 1`. -/
def manifestRowsFrom (n : ℕ) : List Seg → List Row
  | [] => []
  | s :: rest => rowOf n s :: manifestRowsFrom (n + 1) rest

/-- All manifest rows of a segment list, in order. -/
def manifestRows (segments : List Seg) : List Row := manifestRowsFrom 0 segments

/-- The facts `read_wave` (`src/split_audio_v4.py:69-82`) asserts about a
working copy, plus the classified frame stream it yields.  `sampwidth` is
in bytes as in `wave.getsampwidth()`: 2 bytes = 16 bits. -/
structure WavFile where
  nchannels : ℕ
  sampwidth : ℕ
  framerate : ℕ
  frames : List Bool

/-- The VAD precondition asserted by `read_wave`: mono, 16-bit,
sample rate in {8000, 16000, 32000, 48000}. -/
def validVad (w : WavFile) : Prop :=
  w.nchannels = 1 ∧ w.sampwidth = 2 ∧ w.framerate ∈ ([8000, 16000, 32000, 48000] : List ℕ)

instance (w : WavFile) : Decidable (validVad w) := by unfold validVad; infer_instance

/-- `SplitAudio.read_wave` (`src/split_audio_v4.py:69-82`): the three
`assert` statements, in source order, as `Except` errors. -/
def readWave (w : WavFile) : Except String (List Bool) :=
  if w.nchannels ≠ 1 then .error "VAD only works on mono audio"
  else if w.sampwidth ≠ 2 then .error "VAD only works on 16-bit audio"
  else if w.framerate ∈ ([8000, 16000, 32000, 48000] : List ℕ) then .ok w.frames
  else .error "Invalid sample rate"

/-- `split_audio_vad` with its `read_wave` precondition check: an invalid
working copy raises before any frame is classified. -/
def splitAudioVadE (cfg : VadConfig) (w : WavFile) : Except String (List Seg) :=
  (readWave w).map (fun frames => splitAudioVad cfg frames)

/-- `SplitAudio.process_file` (`src/split_audio_v4.py:320-329`) for one
job: split, merge, cut (the resample step only produces the working copy
`w`). -/
def processFileE (cfg : VadConfig) (minLen : ℚ) (batchSize : ℕ)
    (batchOk singleOk : ℕ → Bool) (w : WavFile) : Except String (List ℕ × List Row) :=
  (splitAudioVadE cfg w).map
    (fun segs => cutAudio batchSize batchOk singleOk (mergeSegments minLen segs))

/-- `SplitAudio._process_wrapper` (`src/split_audio_v4.py:376-386`): runs
one job, catches every exception, returns success as a Bool. -/
def processWrapper (cfg : VadConfig) (minLen : ℚ) (batchSize : ℕ)
    (batchOk singleOk : ℕ → Bool) (w : WavFile) : Bool :=
  match processFileE cfg minLen batchSize batchOk singleOk w with
  | .ok _ => true
  | .error _ => false

/-- The per-file outcomes collected by `SplitAudio.process_all`
(`src/split_audio_v4.py:354-372`): every file's job is attempted and its
outcome is `_process_wrapper` of that file alone. -/
def processAllOutcomes (cfg : VadConfig) (minLen : ℚ) (batchSize : ℕ)
    (batchOk singleOk : ℕ → Bool) (ws : List WavFile) : List Bool :=
  ws.map (processWrapper cfg minLen batchSize batchOk singleOk)

/-- The final `success_count / total` summary of `process_all`
(`src/split_audio_v4.py:361-374`). -/
def processAll (cfg : VadConfig) (minLen : ℚ) (batchSize : ℕ)
    (batchOk singleOk : ℕ → Bool) (ws : List WavFile) : ℕ × ℕ :=
  ((processAllOutcomes cfg minLen batchSize batchOk singleOk ws).count true, ws.length)

/-- The run of `split_audio_vad`'s frame loop from the initial state. -/
def vadRun (cfg : VadConfig) (frames : List Bool) : VadState :=
  frames.foldl (vadStep cfg) initState

/-- `x` lies in the union of the time ranges of `l`. -/
def coveredBy (l : List Seg) (x : ℚ) : Prop :=
  ∃ s ∈ l, s.start ≤ x ∧ x ≤ s.stop

/-- Every boundary of every segment of `l` is millisecond-aligned, as the
data model guarantees for `RawSegment`s (all fields rounded to 3
decimals). -/
def msSegs (l : List Seg) : Prop := ∀ s ∈ l, isMs s.start ∧ isMs s.stop

/-- Segments listed in strict stream order: each starts strictly before it
stops and stops strictly before the next starts. -/
def StrictOrder (l : List Seg) : Prop :=
  (∀ s ∈ l, s.start < s.stop) ∧ l.Chain' (fun a b => a.stop < b.start)

/-- Segments listed in weak stream order (enough for the coverage claims). -/
def WeakOrder (l : List Seg) : Prop :=
  (∀ s ∈ l, s.start ≤ s.stop) ∧ l.Chain' (fun a b => a.stop ≤ b.start)

/-! ### Millisecond alignment and rounding -/

theorem isMs_iff {q : ℚ} : isMs q ↔ ∃ n : ℤ, q * 1000 = (n : ℚ) := by
  unfold isMs
  constructor
  · intro h
    exact ⟨(q * 1000).num, ((Rat.den_eq_one_iff _).mp h).symm⟩
  · rintro ⟨n, hn⟩
    rw [hn]
    exact Rat.den_intCast n

theorem isMs.add {a b : ℚ} (ha : isMs a) (hb : isMs b) : isMs (a + b) := by
  rcases isMs_iff.mp ha with ⟨m, hm⟩
  rcases isMs_iff.mp hb with ⟨n, hn⟩
  refine isMs_iff.mpr ⟨m + n, ?_⟩
  rw [add_mul, hm, hn]
  push_cast
  ring

theorem isMs.sub {a b : ℚ} (ha : isMs a) (hb : isMs b) : isMs (a - b) := by
  rcases isMs_iff.mp ha with ⟨m, hm⟩
  rcases isMs_iff.mp hb with ⟨n, hn⟩
  refine isMs_iff.mpr ⟨m - n, ?_⟩
  rw [sub_mul, hm, hn]
  push_cast
  ring

theorem isMs_zero : isMs 0 := isMs_iff.mpr ⟨0, by norm_num⟩

theorem isMs.natMul {q : ℚ} (n : ℕ) (h : isMs q) : isMs ((n : ℚ) * q) := by
  rcases isMs_iff.mp h with ⟨m, hm⟩
  refine isMs_iff.mpr ⟨(n : ℤ) * m, ?_⟩
  rw [mul_assoc, hm]
  push_cast
  ring

theorem isMs_frameSec (cfg : VadConfig) : isMs cfg.frameSec := by
  refine isMs_iff.mpr ⟨(cfg.frameDuration : ℤ), ?_⟩
  rw [VadConfig.frameSec, div_mul_cancel₀]
  · push_cast; ring
  · norm_num

theorem round3_eq_self {q : ℚ} (h : isMs q) : round3 q = q := by
  rcases isMs_iff.mp h with ⟨n, hn⟩
  rw [round3, hn, round_intCast, ← hn, mul_div_assoc]
  norm_num

theorem foldLast_eq {a b : Seg} (ha : isMs a.start) (hb : isMs b.stop) :
    foldLast a b = ⟨a.start, b.stop, b.stop - a.start⟩ := by
  unfold foldLast
  rw [round3_eq_self ha, round3_eq_self hb, round3_eq_self (hb.sub ha)]

/-! ### Merger: forward pass -/

theorem mergeForward_ne_nil (minLen : ℚ) (cur : Seg) (rest : List Seg) :
    mergeForward minLen cur rest ≠ [] := by
  induction rest generalizing cur with
  | nil => simp [mergeForward]
  | cons s r ih =>
    rw [mergeForward]
    split
    · exact ih _
    · simp

theorem mergeForward_length (minLen : ℚ) (cur : Seg) (rest : List Seg) :
    (mergeForward minLen cur rest).length ≤ rest.length + 1 := by
  induction rest generalizing cur with
  | nil => simp [mergeForward]
  | cons s r ih =>
    rw [mergeForward]
    split
    · exact (ih _).trans (by simp)
    · simpa using ih s

theorem mergeForward_dropLast_dur (minLen : ℚ) (cur : Seg) (rest : List Seg) :
    ∀ t ∈ (mergeForward minLen cur rest).dropLast, minLen ≤ t.dur := by
  induction rest generalizing cur with
  | nil => simp [mergeForward]
  | cons s r ih =>
    rw [mergeForward]
    split
    · exact ih _
    · rename_i hge
      push_neg at hge
      intro t ht
      obtain ⟨m, M, hM⟩ : ∃ m M, mergeForward minLen s r = m :: M := by
        cases hMF : mergeForward minLen s r with
        | nil => exact absurd hMF (mergeForward_ne_nil minLen s r)
        | cons m M => exact ⟨m, M, rfl⟩
      rw [hM, List.dropLast_cons₂] at ht
      rcases List.mem_cons.mp ht with h1 | h2
      · exact h1 ▸ hge
      · exact ih s t (by rw [hM]; exact h2)

theorem msSegs_foldLast_cons {cur s : Seg} {r : List Seg}
    (h : msSegs (cur :: s :: r)) : msSegs (foldLast cur s :: r) := by
  have hcur := h cur (by simp)
  have hs := h s (by simp)
  intro t ht
  rcases List.mem_cons.mp ht with h1 | h2
  · subst h1
    rw [foldLast_eq hcur.1 hs.2]
    exact ⟨hcur.1, hs.2⟩
  · exact h t (by simp [h2])

theorem mergeForward_ms {minLen : ℚ} {cur : Seg} {rest : List Seg}
    (h : msSegs (cur :: rest)) : msSegs (mergeForward minLen cur rest) := by
  induction rest generalizing cur with
  | nil =>
    intro t ht
    simp only [mergeForward, List.mem_singleton] at ht
    exact ht ▸ h cur (by simp)
  | cons s r ih =>
    rw [mergeForward]
    split
    · exact ih (msSegs_foldLast_cons h)
    · intro t ht
      rcases List.mem_cons.mp ht with h1 | h2
      · exact h1 ▸ h cur (by simp)
      · exact ih (fun u hu => h u (List.mem_cons_of_mem _ hu)) t h2

theorem mergeForward_head_start (minLen : ℚ) {cur : Seg} {rest : List Seg}
    (h : msSegs (cur :: rest)) :
    (mergeForward minLen cur rest).head?.map Seg.start = some cur.start := by
  induction rest generalizing cur with
  | nil => simp [mergeForward]
  | cons s r ih =>
    rw [mergeForward]
    have hcur := h cur (by simp)
    have hs := h s (by simp)
    split
    · rw [ih (msSegs_foldLast_cons h), foldLast_eq hcur.1 hs.2]
    · simp

theorem mergeForward_getLast_stop {minLen : ℚ} {cur : Seg} {rest : List Seg}
    (h : msSegs (cur :: rest)) :
    (mergeForward minLen cur rest).getLast?.map Seg.stop =
      ((cur :: rest).getLast?).map Seg.stop := by
  induction rest generalizing cur with
  | nil => simp [mergeForward]
  | cons s r ih =>
    rw [mergeForward]
    have hcur := h cur (by simp)
    have hs := h s (by simp)
    split
    · rw [ih (msSegs_foldLast_cons h)]
      cases r with
      | nil => simp [foldLast_eq hcur.1 hs.2]
      | cons c r' => simp [List.getLast?_cons_cons]
    · obtain ⟨m, M, hM⟩ : ∃ m M, mergeForward minLen s r = m :: M := by
        cases hMF : mergeForward minLen s r with
        | nil => exact absurd hMF (mergeForward_ne_nil minLen s r)
        | cons m M => exact ⟨m, M, rfl⟩
      rw [hM, List.getLast?_cons_cons, ← hM,
        ih (fun u hu => h u (List.mem_cons_of_mem _ hu)), List.getLast?_cons_cons]

theorem mergeForward_boundaries {minLen : ℚ} {cur : Seg} {rest : List Seg}
    (h : msSegs (cur :: rest)) :
    ∀ t ∈ mergeForward minLen cur rest,
      t.start ∈ (cur :: rest).map Seg.start ∧ t.stop ∈ (cur :: rest).map Seg.stop := by
  induction rest generalizing cur with
  | nil =>
    intro t ht
    simp only [mergeForward, List.mem_singleton] at ht
    subst ht
    simp
  | cons s r ih =>
    rw [mergeForward]
    have hcur := h cur (by simp)
    have hs := h s (by simp)
    split
    · intro t ht
      have hmem := ih (msSegs_foldLast_cons h) t ht
      rw [foldLast_eq hcur.1 hs.2] at hmem
      simp only [List.map_cons, List.mem_cons] at hmem ⊢
      constructor
      · rcases hmem.1 with h1 | h2
        · exact Or.inl h1
        · exact Or.inr (Or.inr h2)
      · rcases hmem.2 with h1 | h2
        · exact Or.inr (Or.inl h1)
        · exact Or.inr (Or.inr h2)
    · intro t ht
      rcases List.mem_cons.mp ht with h1 | h2
      · subst h1; simp
      · have hmem := ih (fun u hu => h u (List.mem_cons_of_mem _ hu)) t h2
        simp only [List.map_cons, List.mem_cons] at hmem ⊢
        exact ⟨Or.inr hmem.1, Or.inr hmem.2⟩

theorem mergeForward_chain {rel : ℚ → ℚ → Prop} (minLen : ℚ)
    (htr : ∀ a b c, rel a b → rel b c → rel a c)
    {cur : Seg} {rest : List Seg}
    (hms : msSegs (cur :: rest))
    (hin : ∀ t ∈ cur :: rest, rel t.start t.stop)
    (hch : (cur :: rest).Chain' (fun a b => rel a.stop b.start)) :
    (∀ t ∈ mergeForward minLen cur rest, rel t.start t.stop) ∧
      (mergeForward minLen cur rest).Chain' (fun a b => rel a.stop b.start) := by
  induction rest generalizing cur with
  | nil =>
    refine ⟨?_, by simp [mergeForward]⟩
    intro t ht
    simp only [mergeForward, List.mem_singleton] at ht
    exact ht ▸ hin cur (by simp)
  | cons s r ih =>
    have hcur := hms cur (by simp)
    have hs := hms s (by simp)
    have hcs : rel cur.stop s.start := (List.chain'_cons.mp hch).1
    have hch' := (List.chain'_cons.mp hch).2
    have hf := foldLast_eq hcur.1 hs.2
    rw [mergeForward]
    split
    · refine ih (msSegs_foldLast_cons hms) ?_ ?_
      · intro t ht
        rcases List.mem_cons.mp ht with h1 | h2
        · subst h1
          rw [hf]
          exact htr _ _ _ (htr _ _ _ (hin cur (by simp)) hcs) (hin s (by simp))
        · exact hin t (by simp [h2])
      · cases r with
        | nil => simp
        | cons c r' =>
          refine List.chain'_cons.mpr ⟨?_, (List.chain'_cons.mp hch').2⟩
          rw [hf]
          exact (List.chain'_cons.mp hch').1
    · have ihr := ih (fun u hu => hms u (List.mem_cons_of_mem _ hu))
        (fun u hu => hin u (List.mem_cons_of_mem _ hu)) hch'
      refine ⟨?_, ?_⟩
      · intro t ht
        rcases List.mem_cons.mp ht with h1 | h2
        · exact h1 ▸ hin cur (by simp)
        · exact ihr.1 t h2
      · obtain ⟨m, M, hM⟩ : ∃ m M, mergeForward minLen s r = m :: M := by
          cases hMF : mergeForward minLen s r with
          | nil => exact absurd hMF (mergeForward_ne_nil minLen s r)
          | cons m M => exact ⟨m, M, rfl⟩
        have hh := mergeForward_head_start minLen
          (fun u hu => hms u (List.mem_cons_of_mem _ hu))
        rw [hM] at hh
        simp only [List.head?_cons, Option.map_some'] at hh
        have hh' : m.start = s.start := Option.some.inj hh
        rw [hM]
        refine List.chain'_cons.mpr ⟨?_, hM ▸ ihr.2⟩
        rw [hh']
        exact hcs

theorem mergeForward_covers {minLen : ℚ} {cur : Seg} {rest : List Seg}
    (hms : msSegs (cur :: rest))
    (hin : ∀ t ∈ cur :: rest, t.start ≤ t.stop)
    (hch : (cur :: rest).Chain' (fun a b => a.stop ≤ b.start))
    {x : ℚ} (hx : coveredBy (cur :: rest) x) :
    coveredBy (mergeForward minLen cur rest) x := by
  induction rest generalizing cur with
  | nil =>
    rcases hx with ⟨t, ht, hx1, hx2⟩
    simp only [List.mem_singleton] at ht
    exact ⟨cur, by simp [mergeForward], ht ▸ hx1, ht ▸ hx2⟩
  | cons s r ih =>
    have hcur := hms cur (by simp)
    have hs := hms s (by simp)
    have hcs : cur.stop ≤ s.start := (List.chain'_cons.mp hch).1
    have hch' := (List.chain'_cons.mp hch).2
    have hf := foldLast_eq hcur.1 hs.2
    rw [mergeForward]
    split
    · refine ih (msSegs_foldLast_cons hms) ?_ ?_ ?_
      · intro t ht
        rcases List.mem_cons.mp ht with h1 | h2
        · subst h1
          rw [hf]
          exact le_trans (le_trans (hin cur (by simp)) hcs) (hin s (by simp))
        · exact hin t (by simp [h2])
      · cases r with
        | nil => simp
        | cons c r' =>
          refine List.chain'_cons.mpr ⟨?_, (List.chain'_cons.mp hch').2⟩
          rw [hf]
          exact (List.chain'_cons.mp hch').1
      · rcases hx with ⟨t, ht, hx1, hx2⟩
        rcases List.mem_cons.mp ht with h1 | h2
        · rw [h1] at hx1 hx2
          refine ⟨foldLast cur s, by simp, ?_, ?_⟩
          · rw [hf]; exact hx1
          · rw [hf]
            exact le_trans hx2 (le_trans hcs (hin s (by simp)))
        · rcases List.mem_cons.mp h2 with h3 | h4
          · rw [h3] at hx1 hx2
            refine ⟨foldLast cur s, by simp, ?_, ?_⟩
            · rw [hf]
              exact le_trans (le_trans (hin cur (by simp)) hcs) hx1
            · rw [hf]; exact hx2
          · exact ⟨t, List.mem_cons_of_mem _ h4, hx1, hx2⟩
    · rcases hx with ⟨t, ht, hx1, hx2⟩
      rcases List.mem_cons.mp ht with h1 | h2
      · rw [h1] at hx1 hx2
        exact ⟨cur, by simp, hx1, hx2⟩
      · have ihr := ih (fun u hu => hms u (List.mem_cons_of_mem _ hu))
          (fun u hu => hin u (List.mem_cons_of_mem _ hu)) hch' ⟨t, h2, hx1, hx2⟩
        rcases ihr with ⟨u, hu, hu1, hu2⟩
        exact ⟨u, List.mem_cons_of_mem _ hu, hu1, hu2⟩

/-! ### Merger: tail fold -/

theorem mergeTail_length (minLen : ℚ) (l : List Seg) :
    (mergeTail minLen l).length ≤ l.length := by
  induction l using mergeTail.induct minLen with
  | case1 => simp [mergeTail]
  | case2 a => simp [mergeTail]
  | case3 a b h => rw [mergeTail]; simp [h]
  | case4 a b h => rw [mergeTail]; simp [h]
  | case5 a b c rest ih => rw [mergeTail]; simpa using ih

theorem mergeTail_ne_nil (minLen : ℚ) {l : List Seg} (h : l ≠ []) :
    mergeTail minLen l ≠ [] := by
  induction l using mergeTail.induct minLen with
  | case1 => exact absurd rfl h
  | case2 a => simp [mergeTail]
  | case3 a b hb => rw [mergeTail]; simp [hb]
  | case4 a b hb => rw [mergeTail]; simp [hb]
  | case5 a b c rest ih => rw [mergeTail]; simp

theorem mergeTail_dropLast_dur {minLen : ℚ} {l : List Seg}
    (h : ∀ t ∈ l.dropLast, minLen ≤ t.dur) :
    ∀ t ∈ (mergeTail minLen l).dropLast, minLen ≤ t.dur := by
  induction l using mergeTail.induct minLen with
  | case1 => simp [mergeTail]
  | case2 a => simp [mergeTail]
  | case3 a b hb => rw [mergeTail]; simp [hb]
  | case4 a b hb =>
    rw [mergeTail]
    simp only [if_neg hb]
    exact h
  | case5 a b c rest ih =>
    rw [mergeTail]
    intro t ht
    obtain ⟨m, M, hM⟩ : ∃ m M, mergeTail minLen (b :: c :: rest) = m :: M := by
      cases hMF : mergeTail minLen (b :: c :: rest) with
      | nil => exact absurd hMF (mergeTail_ne_nil minLen (by simp))
      | cons m M => exact ⟨m, M, rfl⟩
    rw [hM, List.dropLast_cons₂] at ht
    rcases List.mem_cons.mp ht with h1 | h2
    · exact h1 ▸ h a (by simp)
    · refine ih ?_ t (by rw [hM]; exact h2)
      intro u hu
      exact h u (by rw [List.dropLast_cons₂]; exact List.mem_cons_of_mem _ hu)

theorem mergeTail_ms {minLen : ℚ} {l : List Seg} (h : msSegs l) :
    msSegs (mergeTail minLen l) := by
  induction l using mergeTail.induct minLen with
  | case1 => simpa [mergeTail] using h
  | case2 a => simpa [mergeTail] using h
  | case3 a b hb =>
    rw [mergeTail]
    simp only [if_pos hb]
    intro t ht
    simp only [List.mem_singleton] at ht
    have ha' := h a (by simp)
    have hb' := h b (by simp)
    subst ht
    rw [foldLast_eq ha'.1 hb'.2]
    exact ⟨ha'.1, hb'.2⟩
  | case4 a b hb =>
    rw [mergeTail]
    simpa [hb] using h
  | case5 a b c rest ih =>
    rw [mergeTail]
    intro t ht
    rcases List.mem_cons.mp ht with h1 | h2
    · exact h1 ▸ h a (by simp)
    · exact ih (fun u hu => h u (List.mem_cons_of_mem _ hu)) t h2

theorem mergeTail_head_start (minLen : ℚ) {l : List Seg} (h : msSegs l) :
    (mergeTail minLen l).head?.map Seg.start = l.head?.map Seg.start := by
  induction l using mergeTail.induct minLen with
  | case1 => simp [mergeTail]
  | case2 a => simp [mergeTail]
  | case3 a b hb =>
    have ha' := h a (by simp)
    have hb' := h b (by simp)
    rw [mergeTail]
    simp [if_pos hb, foldLast_eq ha'.1 hb'.2]
  | case4 a b hb =>
    rw [mergeTail]
    simp [hb]
  | case5 a b c rest ih =>
    rw [mergeTail]
    simp

theorem mergeTail_getLast_stop {minLen : ℚ} {l : List Seg} (h : msSegs l) :
    (mergeTail minLen l).getLast?.map Seg.stop = l.getLast?.map Seg.stop := by
  induction l using mergeTail.induct minLen with
  | case1 => simp [mergeTail]
  | case2 a => simp [mergeTail]
  | case3 a b hb =>
    have ha' := h a (by simp)
    have hb' := h b (by simp)
    rw [mergeTail]
    simp [if_pos hb, foldLast_eq ha'.1 hb'.2, List.getLast?_cons_cons]
  | case4 a b hb =>
    rw [mergeTail]
    simp [hb]
  | case5 a b c rest ih =>
    rw [mergeTail]
    obtain ⟨m, M, hM⟩ : ∃ m M, mergeTail minLen (b :: c :: rest) = m :: M := by
      cases hMF : mergeTail minLen (b :: c :: rest) with
      | nil => exact absurd hMF (mergeTail_ne_nil minLen (by simp))
      | cons m M => exact ⟨m, M, rfl⟩
    rw [hM, List.getLast?_cons_cons, ← hM, List.getLast?_cons_cons]
    exact ih (fun u hu => h u (List.mem_cons_of_mem _ hu))

theorem mergeTail_boundaries {minLen : ℚ} {l : List Seg} (h : msSegs l) :
    ∀ t ∈ mergeTail minLen l,
      t.start ∈ l.map Seg.start ∧ t.stop ∈ l.map Seg.stop := by
  induction l using mergeTail.induct minLen with
  | case1 => simp [mergeTail]
  | case2 a => intro t ht; simp [mergeTail] at ht; subst ht; simp
  | case3 a b hb =>
    have ha' := h a (by simp)
    have hb' := h b (by simp)
    rw [mergeTail]
    simp only [if_pos hb]
    intro t ht
    simp only [List.mem_singleton] at ht
    subst ht
    rw [foldLast_eq ha'.1 hb'.2]
    simp
  | case4 a b hb =>
    rw [mergeTail]
    simp only [if_neg hb]
    intro t ht
    rcases List.mem_cons.mp ht with h1 | h2
    · subst h1; simp
    · simp only [List.mem_singleton] at h2
      subst h2
      simp
  | case5 a b c rest ih =>
    rw [mergeTail]
    intro t ht
    rcases List.mem_cons.mp ht with h1 | h2
    · subst h1; simp
    · have hmem := ih (fun u hu => h u (List.mem_cons_of_mem _ hu)) t h2
      simp only [List.map_cons, List.mem_cons] at hmem ⊢
      exact ⟨Or.inr hmem.1, Or.inr hmem.2⟩

theorem mergeTail_chain {rel : ℚ → ℚ → Prop}
    (htr : ∀ a b c, rel a b → rel b c → rel a c) {minLen : ℚ} {l : List Seg}
    (hms : msSegs l)
    (hin : ∀ t ∈ l, rel t.start t.stop)
    (hch : l.Chain' (fun a b => rel a.stop b.start)) :
    (∀ t ∈ mergeTail minLen l, rel t.start t.stop) ∧
      (mergeTail minLen l).Chain' (fun a b => rel a.stop b.start) := by
  induction l using mergeTail.induct minLen with
  | case1 => simp [mergeTail]
  | case2 a =>
    rw [mergeTail]
    exact ⟨hin, by simp⟩
  | case3 a b hb =>
    have ha' := hms a (by simp)
    have hb' := hms b (by simp)
    rw [mergeTail]
    simp only [if_pos hb]
    refine ⟨?_, by simp⟩
    intro t ht
    simp only [List.mem_singleton] at ht
    subst ht
    rw [foldLast_eq ha'.1 hb'.2]
    exact htr _ _ _ (htr _ _ _ (hin a (by simp)) (List.chain'_cons.mp hch).1)
      (hin b (by simp))
  | case4 a b hb =>
    rw [mergeTail]
    simp only [if_neg hb]
    exact ⟨hin, hch⟩
  | case5 a b c rest ih =>
    have ihr := ih (fun u hu => hms u (List.mem_cons_of_mem _ hu))
      (fun u hu => hin u (List.mem_cons_of_mem _ hu)) (List.chain'_cons.mp hch).2
    rw [mergeTail]
    refine ⟨?_, ?_⟩
    · intro t ht
      rcases List.mem_cons.mp ht with h1 | h2
      · exact h1 ▸ hin a (by simp)
      · exact ihr.1 t h2
    · obtain ⟨m, M, hM⟩ : ∃ m M, mergeTail minLen (b :: c :: rest) = m :: M := by
        cases hMF : mergeTail minLen (b :: c :: rest) with
        | nil => exact absurd hMF (mergeTail_ne_nil minLen (by simp))
        | cons m M => exact ⟨m, M, rfl⟩
      have hh := mergeTail_head_start minLen
        (fun u hu => hms u (List.mem_cons_of_mem _ hu))
      rw [hM] at hh
      simp only [List.head?_cons, Option.map_some'] at hh
      have hh' : m.start = b.start := Option.some.inj hh
      rw [hM]
      refine List.chain'_cons.mpr ⟨?_, hM ▸ ihr.2⟩
      rw [hh']
      exact (List.chain'_cons.mp hch).1

theorem mergeTail_covers {minLen : ℚ} {l : List Seg}
    (hms : msSegs l)
    (hin : ∀ t ∈ l, t.start ≤ t.stop)
    (hch : l.Chain' (fun a b => a.stop ≤ b.start))
    {x : ℚ} (hx : coveredBy l x) :
    coveredBy (mergeTail minLen l) x := by
  induction l using mergeTail.induct minLen with
  | case1 => simpa [mergeTail] using hx
  | case2 a => simpa [mergeTail] using hx
  | case3 a b hb =>
    have ha' := hms a (by simp)
    have hb' := hms b (by simp)
    have hab : a.stop ≤ b.start := (List.chain'_cons.mp hch).1
    rw [mergeTail]
    simp only [if_pos hb]
    rcases hx with ⟨t, ht, hx1, hx2⟩
    rcases List.mem_cons.mp ht with h1 | h2
    · rw [h1] at hx1 hx2
      refine ⟨foldLast a b, by simp, ?_, ?_⟩
      · rw [foldLast_eq ha'.1 hb'.2]; exact hx1
      · rw [foldLast_eq ha'.1 hb'.2]
        exact le_trans hx2 (le_trans hab (hin b (by simp)))
    · simp only [List.mem_singleton] at h2
      rw [h2] at hx1 hx2
      refine ⟨foldLast a b, by simp, ?_, ?_⟩
      · rw [foldLast_eq ha'.1 hb'.2]
        exact le_trans (le_trans (hin a (by simp)) hab) hx1
      · rw [foldLast_eq ha'.1 hb'.2]; exact hx2
  | case4 a b hb =>
    rw [mergeTail]
    simpa [hb] using hx
  | case5 a b c rest ih =>
    rw [mergeTail]
    rcases hx with ⟨t, ht, hx1, hx2⟩
    rcases List.mem_cons.mp ht with h1 | h2
    · rw [h1] at hx1 hx2
      exact ⟨a, by simp, hx1, hx2⟩
    · have ihr := ih (fun u hu => hms u (List.mem_cons_of_mem _ hu))
        (fun u hu => hin u (List.mem_cons_of_mem _ hu))
        (List.chain'_cons.mp hch).2 ⟨t, h2, hx1, hx2⟩
      rcases ihr with ⟨u, hu, hu1, hu2⟩
      exact ⟨u, List.mem_cons_of_mem _ hu, hu1, hu2⟩

/-! ### Merger: assembled facts about merge_segments -/

theorem isMs_div1000 (n : ℤ) : isMs ((n : ℚ) / 1000) :=
  isMs_iff.mpr ⟨n, by field_simp⟩

theorem isMs_int (n : ℤ) : isMs ((n : ℚ)) :=
  isMs_iff.mpr ⟨1000 * n, by push_cast; ring⟩

theorem mergeSegments_length (minLen : ℚ) (l : List Seg) :
    (mergeSegments minLen l).length ≤ l.length := by
  cases l with
  | nil => simp [mergeSegments]
  | cons s rest =>
    rw [mergeSegments]
    exact le_trans (mergeTail_length _ _) ((mergeForward_length _ _ _).trans (by simp))

theorem mergeSegments_dropLast_dur (minLen : ℚ) (l : List Seg) :
    ∀ t ∈ (mergeSegments minLen l).dropLast, minLen ≤ t.dur := by
  cases l with
  | nil => simp [mergeSegments]
  | cons s rest =>
    rw [mergeSegments]
    exact mergeTail_dropLast_dur (mergeForward_dropLast_dur minLen s rest)

theorem mergeSegments_ms {minLen : ℚ} {l : List Seg} (h : msSegs l) :
    msSegs (mergeSegments minLen l) := by
  cases l with
  | nil => exact h
  | cons s rest =>
    rw [mergeSegments]
    exact mergeTail_ms (mergeForward_ms h)

theorem mergeSegments_ne_nil (minLen : ℚ) {l : List Seg} (h : l ≠ []) :
    mergeSegments minLen l ≠ [] := by
  cases l with
  | nil => exact absurd rfl h
  | cons s rest =>
    rw [mergeSegments]
    exact mergeTail_ne_nil minLen (mergeForward_ne_nil minLen s rest)

theorem mergeSegments_head_start {minLen : ℚ} {l : List Seg} (h : msSegs l) :
    (mergeSegments minLen l).head?.map Seg.start = l.head?.map Seg.start := by
  cases l with
  | nil => rfl
  | cons s rest =>
    rw [mergeSegments, mergeTail_head_start minLen (mergeForward_ms h),
      mergeForward_head_start minLen h]
    simp

theorem mergeSegments_getLast_stop {minLen : ℚ} {l : List Seg} (h : msSegs l) :
    (mergeSegments minLen l).getLast?.map Seg.stop = l.getLast?.map Seg.stop := by
  cases l with
  | nil => rfl
  | cons s rest =>
    rw [mergeSegments, mergeTail_getLast_stop (mergeForward_ms h),
      mergeForward_getLast_stop h]

theorem mergeSegments_boundaries {minLen : ℚ} {l : List Seg} (h : msSegs l) :
    ∀ t ∈ mergeSegments minLen l,
      t.start ∈ l.map Seg.start ∧ t.stop ∈ l.map Seg.stop := by
  cases l with
  | nil => simp [mergeSegments]
  | cons s rest =>
    rw [mergeSegments]
    intro t ht
    have h1 := mergeTail_boundaries (mergeForward_ms h) t ht
    constructor
    · rcases List.mem_map.mp h1.1 with ⟨u, hu, hu'⟩
      exact hu' ▸ (mergeForward_boundaries h u hu).1
    · rcases List.mem_map.mp h1.2 with ⟨u, hu, hu'⟩
      exact hu' ▸ (mergeForward_boundaries h u hu).2

theorem mergeSegments_chain {rel : ℚ → ℚ → Prop} (minLen : ℚ)
    (htr : ∀ a b c, rel a b → rel b c → rel a c) {l : List Seg}
    (hms : msSegs l)
    (hin : ∀ t ∈ l, rel t.start t.stop)
    (hch : l.Chain' (fun a b => rel a.stop b.start)) :
    (∀ t ∈ mergeSegments minLen l, rel t.start t.stop) ∧
      (mergeSegments minLen l).Chain' (fun a b => rel a.stop b.start) := by
  cases l with
  | nil => simp [mergeSegments]
  | cons s rest =>
    rw [mergeSegments]
    have hf := mergeForward_chain minLen htr hms hin hch
    exact mergeTail_chain htr (mergeForward_ms hms) hf.1 hf.2

theorem mergeSegments_covers {minLen : ℚ} {l : List Seg}
    (hms : msSegs l)
    (hin : ∀ t ∈ l, t.start ≤ t.stop)
    (hch : l.Chain' (fun a b => a.stop ≤ b.start))
    {x : ℚ} (hx : coveredBy l x) :
    coveredBy (mergeSegments minLen l) x := by
  cases l with
  | nil =>
    rcases hx with ⟨t, ht, _, _⟩
    exact absurd ht (List.not_mem_nil t)
  | cons s rest =>
    rw [mergeSegments]
    have hf := mergeForward_chain minLen
      (fun a b c (hab : a ≤ b) (hbc : b ≤ c) => le_trans hab hbc) hms hin hch
    exact mergeTail_covers (mergeForward_ms hms) hf.1 hf.2
      (mergeForward_covers hms hin hch hx)

theorem mergeForward_zero {cur : Seg} {rest : List Seg}
    (hcur : 0 ≤ cur.dur) (h : ∀ t ∈ rest, 0 ≤ t.dur) :
    mergeForward 0 cur rest = cur :: rest := by
  induction rest generalizing cur with
  | nil => rfl
  | cons s r ih =>
    rw [mergeForward, if_neg (not_lt.mpr hcur),
      ih (h s (by simp)) (fun t ht => h t (List.mem_cons_of_mem _ ht))]

theorem mergeTail_zero {l : List Seg} (h : ∀ t ∈ l, 0 ≤ t.dur) :
    mergeTail 0 l = l := by
  induction l using mergeTail.induct 0 with
  | case1 => rfl
  | case2 a => rfl
  | case3 a b hb => exact absurd (h b (by simp)) (not_le.mpr hb)
  | case4 a b hb => rw [mergeTail, if_neg hb]
  | case5 a b c rest ih =>
    rw [mergeTail, ih (fun t ht => h t (List.mem_cons_of_mem _ ht))]

/-! ### Segmentation state machine -/

theorem frameSec_pos {cfg : VadConfig} (h : 0 < cfg.frameDuration) :
    0 < cfg.frameSec := by
  rw [VadConfig.frameSec]
  exact div_pos (by exact_mod_cast h) (by norm_num)

theorem vadStep_currentTime (cfg : VadConfig) (st : VadState) (b : Bool) :
    (vadStep cfg st b).currentTime = st.currentTime + cfg.frameSec := by
  rw [vadStep]
  split
  · rfl
  · split
    · split
      · rfl
      · rfl
    · rfl

theorem vadRun_append_single (cfg : VadConfig) (frames : List Bool) (b : Bool) :
    vadRun cfg (frames ++ [b]) = vadStep cfg (vadRun cfg frames) b := by
  simp [vadRun]

theorem foldl_vadStep_currentTime (cfg : VadConfig) (frames : List Bool) :
    ∀ st : VadState,
      (frames.foldl (vadStep cfg) st).currentTime =
        st.currentTime + (frames.length : ℚ) * cfg.frameSec := by
  induction frames with
  | nil => intro st; simp
  | cons b bs ih =>
    intro st
    rw [List.foldl_cons, ih, vadStep_currentTime, List.length_cons]
    push_cast
    ring

theorem vadRun_currentTime (cfg : VadConfig) (frames : List Bool) :
    (vadRun cfg frames).currentTime = (frames.length : ℚ) * cfg.frameSec := by
  rw [vadRun, foldl_vadStep_currentTime]
  simp [initState]

theorem vadStep_ms (cfg : VadConfig) (st : VadState) (b : Bool)
    (ht : isMs st.currentTime)
    (hs : ∀ ss, st.segmentStart = some ss → isMs ss) :
    isMs (vadStep cfg st b).currentTime ∧
      ∀ ss, (vadStep cfg st b).segmentStart = some ss → isMs ss := by
  have htfd : isMs (st.currentTime + cfg.frameSec) := ht.add (isMs_frameSec cfg)
  rw [vadStep]
  split
  · refine ⟨htfd, ?_⟩
    intro ss hss
    have hss' : st.segmentStart.getD st.currentTime = ss := by simpa using hss
    subst hss'
    cases hst : st.segmentStart with
    | none => simp [hst]; exact ht
    | some ss0 => simp [hst]; exact hs ss0 hst
  · split
    · split
      · exact ⟨htfd, fun ss hss => by simp at hss⟩
      · exact ⟨htfd, fun ss hss => hs ss hss⟩
    · exact ⟨htfd, fun ss hss => hs ss hss⟩

theorem vadRun_ms (cfg : VadConfig) (frames : List Bool) :
    isMs (vadRun cfg frames).currentTime ∧
      ∀ ss, (vadRun cfg frames).segmentStart = some ss → isMs ss := by
  suffices h : ∀ st : VadState, isMs st.currentTime →
      (∀ ss, st.segmentStart = some ss → isMs ss) →
      isMs ((frames.foldl (vadStep cfg) st).currentTime) ∧
        ∀ ss, (frames.foldl (vadStep cfg) st).segmentStart = some ss → isMs ss by
    exact h initState isMs_zero (fun ss hss => by simp [initState] at hss)
  induction frames with
  | nil => intro st h1 h2; exact ⟨h1, h2⟩
  | cons b bs ih =>
    intro st h1 h2
    rw [List.foldl_cons]
    have hstep := vadStep_ms cfg st b h1 h2
    exact ih _ hstep.1 hstep.2

theorem vadStep_info_dur (cfg : VadConfig) (st : VadState) (b : Bool)
    (h : ∀ s ∈ st.info, 1/5 ≤ s.dur) :
    ∀ s ∈ (vadStep cfg st b).info, 1/5 ≤ s.dur := by
  rw [vadStep]
  split
  · exact h
  · split
    · split
      · intro s hs
        rcases List.mem_append.mp hs with h1 | h2
        · exact h _ h1
        · split at h2
          · simp only [List.mem_singleton] at h2
            subst h2
            assumption
          · exact absurd h2 (List.not_mem_nil s)
      · exact h
    · exact h

theorem vadRun_info_dur (cfg : VadConfig) (frames : List Bool) :
    ∀ s ∈ (vadRun cfg frames).info, 1/5 ≤ s.dur := by
  suffices h : ∀ st : VadState, (∀ s ∈ st.info, 1/5 ≤ s.dur) →
      ∀ s ∈ (frames.foldl (vadStep cfg) st).info, 1/5 ≤ s.dur by
    exact h initState (by simp [initState])
  induction frames with
  | nil => intro st h1; exact h1
  | cons b bs ih =>
    intro st h1
    rw [List.foldl_cons]
    exact ih _ (vadStep_info_dur cfg st b h1)

theorem vadFinish_dur (cfg : VadConfig) (st : VadState)
    (h : ∀ s ∈ st.info, 1/5 ≤ s.dur) :
    ∀ s ∈ vadFinish cfg st, 1/5 ≤ s.dur ∨ cfg.minSegmentMs / 1000 ≤ s.dur := by
  rw [vadFinish]
  split
  · split
    · intro s hs
      rcases List.mem_append.mp hs with h1 | h2
      · exact Or.inl (h _ h1)
      · simp only [List.mem_singleton] at h2
        subst h2
        right
        assumption
    · exact fun s hs => Or.inl (h s hs)
  · exact fun s hs => Or.inl (h s hs)

/-- Run invariant of the frame loop: timestamps are millisecond-aligned,
the emitted segments are strictly ordered, and an open segment starts
after every emitted stop and at least one frame before the current time. -/
def VadInv (cfg : VadConfig) (st : VadState) : Prop :=
  isMs st.currentTime ∧
  msSegs st.info ∧
  (∀ s ∈ st.info, s.start < s.stop) ∧
  st.info.Chain' (fun a b => a.stop < b.start) ∧
  (∀ ss, st.segmentStart = some ss →
    isMs ss ∧ ss + cfg.frameSec ≤ st.currentTime ∧ ∀ s ∈ st.info, s.stop < ss) ∧
  (st.segmentStart = none → ∀ s ∈ st.info, s.stop < st.currentTime)

theorem vadStep_inv {cfg : VadConfig} (hd : 0 < cfg.frameDuration)
    {st : VadState} (h : VadInv cfg st) (b : Bool) :
    VadInv cfg (vadStep cfg st b) := by
  obtain ⟨ht, hms, hint, hch, hsome, hnone⟩ := h
  have hfd : 0 < cfg.frameSec := frameSec_pos hd
  have htfd : isMs (st.currentTime + cfg.frameSec) := ht.add (isMs_frameSec cfg)
  rw [vadStep]
  split
  · -- speech frame
    refine ⟨htfd, hms, hint, hch, ?_, ?_⟩
    · intro ss hss
      have hss' : st.segmentStart.getD st.currentTime = ss := by simpa using hss
      subst hss'
      cases hst : st.segmentStart with
      | none =>
        simp only [hst, Option.getD_none]
        exact ⟨ht, by linarith, fun s hs => hnone hst s hs⟩
      | some ss0 =>
        simp only [hst, Option.getD_some]
        obtain ⟨h1, h2, h3⟩ := hsome ss0 hst
        exact ⟨h1, by linarith, h3⟩
    · intro hnone'
      exact absurd hnone' (by simp)
  · split
    · -- silence frame with an open segment
      rename_i ss0 hst
      obtain ⟨hssms, hssle, hstops⟩ := hsome ss0 hst
      split
      · -- silence run reached the threshold: close the segment
        by_cases hg : (1:ℚ)/5 ≤
            round3 (st.currentTime - ((st.silenceFrames + 1 : ℕ) : ℚ) * cfg.frameSec - ss0)
        · rw [if_pos hg]
          have hems : isMs (st.currentTime - ((st.silenceFrames + 1 : ℕ) : ℚ) * cfg.frameSec) :=
            ht.sub ((isMs_frameSec cfg).natMul _)
          have hdms : isMs (st.currentTime - ((st.silenceFrames + 1 : ℕ) : ℚ) * cfg.frameSec - ss0) :=
            hems.sub hssms
          rw [round3_eq_self hssms, round3_eq_self hems, round3_eq_self hdms] at *
          have hgap : (1:ℚ) ≤ ((st.silenceFrames + 1 : ℕ) : ℚ) := by
            exact_mod_cast Nat.succ_le_succ (Nat.zero_le _)
          have hkfd : cfg.frameSec ≤ ((st.silenceFrames + 1 : ℕ) : ℚ) * cfg.frameSec := by
            nlinarith
          have hss0e : ss0 < st.currentTime - ((st.silenceFrames + 1 : ℕ) : ℚ) * cfg.frameSec := by
            linarith
          refine ⟨htfd, ?_, ?_, ?_, ?_, ?_⟩
          · intro s hs
            rcases List.mem_append.mp hs with h1 | h2
            · exact hms s h1
            · simp only [List.mem_singleton] at h2
              subst h2
              exact ⟨hssms, hems⟩
          · intro s hs
            rcases List.mem_append.mp hs with h1 | h2
            · exact hint s h1
            · simp only [List.mem_singleton] at h2
              subst h2
              exact hss0e
          · rw [List.chain'_append]
            refine ⟨hch, by simp, ?_⟩
            intro x hx y hy
            simp only [List.head?_cons, Option.mem_def, Option.some.injEq] at hy
            subst hy
            have hxmem : x ∈ st.info := by
              rcases List.mem_getLast?_eq_getLast hx with ⟨hne, hxe⟩
              exact hxe ▸ List.getLast_mem hne
            show x.stop < ss0
            exact hstops x hxmem
          · intro ss hss
            exact absurd hss (by simp)
          · intro _ s hs
            rcases List.mem_append.mp hs with h1 | h2
            · exact lt_trans (hstops s h1)
                (show ss0 < st.currentTime + cfg.frameSec by linarith)
            · simp only [List.mem_singleton] at h2
              subst h2
              show st.currentTime - ((st.silenceFrames + 1 : ℕ) : ℚ) * cfg.frameSec
                  < st.currentTime + cfg.frameSec
              linarith
        · rw [if_neg hg]
          simp only [List.append_nil]
          refine ⟨htfd, hms, hint, hch, ?_, ?_⟩
          · intro ss hss
            exact absurd hss (by simp)
          · intro _ s hs
            exact lt_trans (hstops s hs)
              (show ss0 < st.currentTime + cfg.frameSec by linarith)
      · -- silence run below the threshold
        refine ⟨htfd, hms, hint, hch, ?_, ?_⟩
        · intro ss hss
          have hss' : ss = ss0 := by rw [hst] at hss; exact (Option.some.inj hss).symm
          rw [hss']
          exact ⟨hssms,
            show ss0 + cfg.frameSec ≤ st.currentTime + cfg.frameSec by linarith, hstops⟩
        · intro hss
          rw [hst] at hss
          exact Option.noConfusion hss
    · -- silence frame with no open segment
      rename_i hst
      refine ⟨htfd, hms, hint, hch, ?_, ?_⟩
      · intro ss hss
        rw [hst] at hss
        exact Option.noConfusion hss
      · intro _ s hs
        exact lt_trans (hnone hst s hs)
          (show st.currentTime < st.currentTime + cfg.frameSec by linarith)

theorem vadRun_inv (cfg : VadConfig) (hd : 0 < cfg.frameDuration)
    (frames : List Bool) : VadInv cfg (vadRun cfg frames) := by
  suffices h : ∀ st : VadState, VadInv cfg st →
      VadInv cfg (frames.foldl (vadStep cfg) st) by
    refine h initState ?_
    refine ⟨isMs_zero, ?_, ?_, ?_, ?_, ?_⟩ <;> simp [initState, msSegs]
  induction frames with
  | nil => exact fun st h => h
  | cons b bs ih =>
    intro st h
    rw [List.foldl_cons]
    exact ih _ (vadStep_inv hd h b)

theorem splitAudioVad_eq_finish_run (cfg : VadConfig) (frames : List Bool) :
    splitAudioVad cfg frames = vadFinish cfg (vadRun cfg frames) := rfl

theorem splitAudioVad_order (cfg : VadConfig) (hd : 0 < cfg.frameDuration)
    (frames : List Bool) :
    msSegs (splitAudioVad cfg frames) ∧
      (∀ s ∈ splitAudioVad cfg frames, s.start < s.stop) ∧
      (splitAudioVad cfg frames).Chain' (fun a b => a.stop < b.start) := by
  obtain ⟨ht, hms, hint, hch, hsome, hnone⟩ := vadRun_inv cfg hd frames
  have hfd := frameSec_pos hd
  rw [splitAudioVad_eq_finish_run, vadFinish]
  split
  · rename_i ss hss
    obtain ⟨hssms, hssle, hstops⟩ := hsome ss hss
    have hsst : ss < (vadRun cfg frames).currentTime := by linarith
    split
    · rw [round3_eq_self hssms, round3_eq_self ht]
      refine ⟨?_, ?_, ?_⟩
      · intro s hs
        rcases List.mem_append.mp hs with h1 | h2
        · exact hms s h1
        · simp only [List.mem_singleton] at h2
          subst h2
          exact ⟨hssms, ht⟩
      · intro s hs
        rcases List.mem_append.mp hs with h1 | h2
        · exact hint s h1
        · simp only [List.mem_singleton] at h2
          subst h2
          exact hsst
      · rw [List.chain'_append]
        refine ⟨hch, by simp, ?_⟩
        intro x hx y hy
        simp only [List.head?_cons, Option.mem_def, Option.some.injEq] at hy
        subst hy
        have hxmem : x ∈ (vadRun cfg frames).info := by
          rcases List.mem_getLast?_eq_getLast hx with ⟨hne, hxe⟩
          exact hxe ▸ List.getLast_mem hne
        show x.stop < ss
        exact hstops x hxmem
    · exact ⟨hms, hint, hch⟩
  · exact ⟨hms, hint, hch⟩

/-! ### Segment cutter -/

theorem cutAudioGo_rows (batchSize : ℕ) (batchOk singleOk : ℕ → Bool) :
    ∀ (rest : List (ℕ × Seg)) (batchNo : ℕ) (pending : List (ℕ × Seg))
      (files : List ℕ) (rows : List Row),
      (cutAudioGo batchSize batchOk singleOk batchNo pending files rows rest).2 =
        rows ++ rest.map (fun p => rowOf p.1 p.2) := by
  intro rest
  induction rest with
  | nil =>
    intro batchNo pending files rows
    rw [cutAudioGo]
    split <;> simp
  | cons p rest ih =>
    intro batchNo pending files rows
    obtain ⟨i, s⟩ := p
    rw [cutAudioGo]
    split
    · rw [ih]
      simp
    · rw [ih]
      simp

theorem manifestRowsFrom_eq (n : ℕ) (l : List Seg) :
    manifestRowsFrom n l = (List.enumFrom n l).map (fun p => rowOf p.1 p.2) := by
  induction l generalizing n with
  | nil => rfl
  | cons s r ih => rw [manifestRowsFrom, List.enumFrom_cons, List.map_cons, ih]

theorem manifestRows_length (l : List Seg) : (manifestRows l).length = l.length := by
  rw [manifestRows, manifestRowsFrom_eq, List.length_map, List.enumFrom_length]

theorem cutAudio_rows (batchSize : ℕ) (batchOk singleOk : ℕ → Bool)
    (segments : List Seg) :
    (cutAudio batchSize batchOk singleOk segments).2 = manifestRows segments := by
  rw [cutAudio, cutAudioGo_rows, manifestRows, manifestRowsFrom_eq]
  rfl

theorem cutAudioGo_files_batchFail (batchSize : ℕ) (singleOk : ℕ → Bool) :
    ∀ (rest : List (ℕ × Seg)) (batchNo : ℕ) (pending : List (ℕ × Seg))
      (files : List ℕ) (rows : List Row),
      (cutAudioGo batchSize (fun _ => false) singleOk batchNo pending files rows rest).1 =
        files ++ ((pending ++ rest).filter (fun p => singleOk p.1)).map (fun p => p.1 + 1) := by
  intro rest
  induction rest with
  | nil =>
    intro batchNo pending files rows
    rw [cutAudioGo]
    by_cases hp : pending.isEmpty
    · rw [if_pos hp]
      rw [List.isEmpty_iff] at hp
      simp [hp]
    · rw [if_neg hp]
      simp [cutSegmentsBatch]
  | cons p rest ih =>
    intro batchNo pending files rows
    obtain ⟨i, s⟩ := p
    rw [cutAudioGo]
    split
    · rw [ih]
      simp only [cutSegmentsBatch, Bool.false_eq_true, if_false, List.filter_append,
        List.map_append, List.append_assoc, List.append_nil]
      by_cases hsi : singleOk i <;> simp [List.filter_cons, hsi]
    · rw [ih]
      simp [List.filter_append, List.map_append, List.append_assoc]

theorem cutAudio_files_batchFail (batchSize : ℕ) (singleOk : ℕ → Bool)
    (segments : List Seg) :
    (cutAudio batchSize (fun _ => false) singleOk segments).1 =
      (segments.enum.filter (fun p => singleOk p.1)).map (fun p => p.1 + 1) := by
  rw [cutAudio, cutAudioGo_files_batchFail]
  simp

theorem manifestRowsFrom_chain (l : List Seg)
    (h1 : ∀ s ∈ l, s.start < s.stop)
    (h2 : l.Chain' (fun a b => a.stop < b.start)) :
    ∀ n : ℕ,
      (manifestRowsFrom n l).Chain' (fun a b => a.start < b.start ∧ a.idx < b.idx) := by
  induction l with
  | nil => intro n; simp [manifestRowsFrom]
  | cons s r ih =>
    intro n
    rw [manifestRowsFrom]
    cases r with
    | nil => simp [manifestRowsFrom]
    | cons c r' =>
      rw [manifestRowsFrom]
      refine List.chain'_cons.mpr ⟨⟨?_, ?_⟩, ?_⟩
      · exact lt_trans (h1 s (by simp)) (List.chain'_cons.mp h2).1
      · show n + 1 < n + 1 + 1
        omega
      · show ((manifestRowsFrom (n + 1) (c :: r')).Chain' _)
        exact ih (fun u hu => h1 u (List.mem_cons_of_mem _ hu))
          (List.chain'_cons.mp h2).2 (n + 1)

/-! ### Batch orchestrator -/

theorem readWave_valid {w : WavFile} (h : validVad w) : readWave w = .ok w.frames := by
  obtain ⟨h1, h2, h3⟩ := h
  rw [readWave, if_neg (by simp [h1]), if_neg (by simp [h2]), if_pos h3]

theorem readWave_not_valid {w : WavFile} (h : ¬ validVad w) :
    ∃ e, readWave w = .error e := by
  rw [readWave]
  by_cases h1 : w.nchannels ≠ 1
  · rw [if_pos h1]
    exact ⟨_, rfl⟩
  · rw [if_neg h1]
    by_cases h2 : w.sampwidth ≠ 2
    · rw [if_pos h2]
      exact ⟨_, rfl⟩
    · rw [if_neg h2]
      push_neg at h1 h2
      have h3 : w.framerate ∉ ([8000, 16000, 32000, 48000] : List ℕ) := by
        intro hmem
        exact h ⟨h1, h2, hmem⟩
      rw [if_neg h3]
      exact ⟨_, rfl⟩

theorem splitAudioVadE_not_valid (cfg : VadConfig) {w : WavFile}
    (h : ¬ validVad w) : ∃ e, splitAudioVadE cfg w = .error e := by
  obtain ⟨e, he⟩ := readWave_not_valid h
  exact ⟨e, by rw [splitAudioVadE, he]; rfl⟩

theorem processWrapper_not_valid (cfg : VadConfig) (minLen : ℚ) (batchSize : ℕ)
    (batchOk singleOk : ℕ → Bool) {w : WavFile} (h : ¬ validVad w) :
    processWrapper cfg minLen batchSize batchOk singleOk w = false := by
  obtain ⟨e, he⟩ := splitAudioVadE_not_valid cfg h
  rw [processWrapper, processFileE, he]
  rfl

theorem processWrapper_valid (cfg : VadConfig) (minLen : ℚ) (batchSize : ℕ)
    (batchOk singleOk : ℕ → Bool) {w : WavFile} (h : validVad w) :
    processWrapper cfg minLen batchSize batchOk singleOk w = true := by
  rw [processWrapper, processFileE, splitAudioVadE, readWave_valid h]
  rfl

theorem count_true_add_count_false (l : List Bool) :
    l.count true + l.count false = l.length := by
  induction l with
  | nil => simp
  | cons b bs ih =>
    cases b <;> simp [List.count_cons] <;> omega

/-! ### Claim theorems: the Merger (C4, C5, C6, C7, C10) -/

/-- C6: the Merger maps the empty segment list to the empty list, and for
every `min_len` it maps any single-segment input to that same
single-segment list unchanged. -/
theorem mergeSegments_empty_and_singleton :
    (∀ minLen : ℚ, mergeSegments minLen [] = []) ∧
      (∀ (minLen : ℚ) (s : Seg), mergeSegments minLen [s] = [s]) :=
  ⟨fun _ => rfl, fun _ _ => rfl⟩

/-- C7: with `min_len = 0.0` the Merger is the identity on every segment
list whose stored durations are nonnegative (every RawSegment has
`duration_sec ≥ 0.2 > 0`, so this covers all Merger inputs). -/
theorem mergeSegments_min_len_zero_id (l : List Seg) (h : ∀ t ∈ l, 0 ≤ t.dur) :
    mergeSegments 0 l = l := by
  cases l with
  | nil => rfl
  | cons s rest =>
    rw [mergeSegments,
      mergeForward_zero (h s (by simp)) (fun t ht => h t (List.mem_cons_of_mem _ ht)),
      mergeTail_zero h]

theorem mergeSegments_min_len_zero_id_witness :
    mergeSegments 0 [⟨0, 1, 1⟩, ⟨2, 3, 1⟩] = [⟨0, 1, 1⟩, ⟨2, 3, 1⟩] := by
  refine mergeSegments_min_len_zero_id _ ?_
  intro t ht
  rcases List.mem_cons.mp ht with h | h
  · subst h; norm_num
  · simp only [List.mem_singleton] at h
    subst h; norm_num

/-- C5: merging never increases the segment count, and every output
segment other than possibly the last has stored duration at least
`min_len` (proved without the claim's "mergeable neighbor" proviso: the
forward pass only finalizes a segment after its duration passed
`min_len`, and the tail fold only rewrites the last segment). -/
theorem mergeSegments_count_and_floor (minLen : ℚ) (l : List Seg) :
    (mergeSegments minLen l).length ≤ l.length ∧
      ∀ t ∈ (mergeSegments minLen l).dropLast, minLen ≤ t.dur :=
  ⟨mergeSegments_length minLen l, mergeSegments_dropLast_dur minLen l⟩

theorem mergeSegments_count_and_floor_witness :
    (mergeSegments 2 [⟨0, 1, 1⟩, ⟨2, 3, 1⟩, ⟨5, 9, 4⟩]).length ≤ 3 ∧
      (2 : ℚ) ≤ (⟨0, 3, 3⟩ : Seg).dur := by
  have h := mergeSegments_count_and_floor 2 [⟨0, 1, 1⟩, ⟨2, 3, 1⟩, ⟨5, 9, 4⟩]
  have heval : mergeSegments 2 [(⟨0, 1, 1⟩ : Seg), ⟨2, 3, 1⟩, ⟨5, 9, 4⟩] =
      [⟨0, 3, 3⟩, ⟨5, 9, 4⟩] := by
    norm_num [mergeSegments, mergeForward, mergeTail, foldLast, round3]
  refine ⟨by simpa using h.1, h.2 ⟨0, 3, 3⟩ ?_⟩
  rw [heval]
  simp

/-- C4 counterexample: for raw segments `[0, 0.1]` and `[0.5, 0.6]` with
`min_len = 0.3`, the merge output covers the instant `0.3` that lies in
the gap, so the union of merged ranges is strictly larger than the union
of raw ranges — the claimed equality fails. -/
theorem mergeSegments_union_cex :
    coveredBy (mergeSegments (3/10) [⟨0, 1/10, 1/10⟩, ⟨1/2, 3/5, 1/10⟩]) (3/10) ∧
      ¬ coveredBy [⟨0, 1/10, 1/10⟩, ⟨1/2, 3/5, 1/10⟩] (3/10) := by
  have heval : mergeSegments (3/10) [(⟨0, 1/10, 1/10⟩ : Seg), ⟨1/2, 3/5, 1/10⟩] =
      [⟨0, 3/5, 3/5⟩] := by
    norm_num [mergeSegments, mergeForward, mergeTail, foldLast, round3]
  constructor
  · rw [heval]
    exact ⟨⟨0, 3/5, 3/5⟩, by simp, by norm_num, by norm_num⟩
  · rintro ⟨t, ht, h1, h2⟩
    rcases List.mem_cons.mp ht with h | h
    · subst h; norm_num at h2
    · simp only [List.mem_singleton] at h
      subst h; norm_num at h1

/-- C4 (amended): for every millisecond-aligned, weakly ordered raw
segment list, the union of the merged segments' ranges CONTAINS the union
of the raw segments' ranges (merging may additionally absorb the gaps
between merged neighbours, so equality can fail but the inclusion always
holds). -/
theorem mergeSegments_union_superset (minLen : ℚ) (l : List Seg)
    (hms : msSegs l) (hord : WeakOrder l) (x : ℚ) (hx : coveredBy l x) :
    coveredBy (mergeSegments minLen l) x :=
  mergeSegments_covers hms hord.1 hord.2 hx

theorem mergeSegments_union_superset_witness :
    coveredBy (mergeSegments 5 [⟨0, 1, 1⟩]) (1/2) := by
  refine mergeSegments_union_superset 5 [⟨0, 1, 1⟩] ?_ ?_ (1/2) ?_
  · intro t ht
    simp only [List.mem_singleton] at ht
    subst ht
    exact ⟨by simpa using isMs_int 0, by simpa using isMs_int 1⟩
  · refine ⟨?_, by simp⟩
    intro t ht
    simp only [List.mem_singleton] at ht
    subst ht
    norm_num
  · exact ⟨⟨0, 1, 1⟩, by simp, by norm_num, by norm_num⟩

/-- C10: for every millisecond-aligned raw segment list, the Merger
preserves the first start and the last end, every output boundary is a
boundary of some input segment (no invented or split boundaries), and on
strictly ordered input the outputs stay in ascending order. -/
theorem mergeSegments_boundary_provenance (minLen : ℚ) (l : List Seg)
    (hms : msSegs l) :
    (mergeSegments minLen l).head?.map Seg.start = l.head?.map Seg.start ∧
      (mergeSegments minLen l).getLast?.map Seg.stop = l.getLast?.map Seg.stop ∧
      (∀ t ∈ mergeSegments minLen l,
        t.start ∈ l.map Seg.start ∧ t.stop ∈ l.map Seg.stop) ∧
      (StrictOrder l → StrictOrder (mergeSegments minLen l)) := by
  refine ⟨mergeSegments_head_start hms, mergeSegments_getLast_stop hms,
    mergeSegments_boundaries hms, ?_⟩
  rintro ⟨hin, hch⟩
  have h := mergeSegments_chain minLen
    (fun a b c (hab : a < b) (hbc : b < c) => lt_trans hab hbc) hms hin hch
  exact ⟨h.1, h.2⟩

theorem mergeSegments_boundary_provenance_witness :
    (mergeSegments 2 [(⟨0, 1, 1⟩ : Seg), ⟨2, 3, 1⟩]).head?.map Seg.start =
        [(⟨0, 1, 1⟩ : Seg), ⟨2, 3, 1⟩].head?.map Seg.start ∧
      (mergeSegments 2 [(⟨0, 1, 1⟩ : Seg), ⟨2, 3, 1⟩]).getLast?.map Seg.stop =
        [(⟨0, 1, 1⟩ : Seg), ⟨2, 3, 1⟩].getLast?.map Seg.stop ∧
      (∀ t ∈ mergeSegments 2 [(⟨0, 1, 1⟩ : Seg), ⟨2, 3, 1⟩],
        t.start ∈ [(⟨0, 1, 1⟩ : Seg), ⟨2, 3, 1⟩].map Seg.start ∧
          t.stop ∈ [(⟨0, 1, 1⟩ : Seg), ⟨2, 3, 1⟩].map Seg.stop) ∧
      (StrictOrder [(⟨0, 1, 1⟩ : Seg), ⟨2, 3, 1⟩] →
        StrictOrder (mergeSegments 2 [(⟨0, 1, 1⟩ : Seg), ⟨2, 3, 1⟩])) := by
  refine mergeSegments_boundary_provenance 2 _ ?_
  intro t ht
  rcases List.mem_cons.mp ht with h | h
  · subst h
    exact ⟨by simpa using isMs_int 0, by simpa using isMs_int 1⟩
  · simp only [List.mem_singleton] at h
    subst h
    exact ⟨by simpa using isMs_int 2, by simpa using isMs_int 3⟩

/-! ### Claim theorems: the Segmentation State Machine (C1, C2) -/

theorem vadStep_close (cfg : VadConfig) (st : VadState) (ss : ℚ)
    (hss : st.segmentStart = some ss)
    (hthr : cfg.minSilenceFrames ≤ st.silenceFrames + 1) :
    vadStep cfg st false =
      { info := st.info ++
          (if 1/5 ≤ round3 (st.currentTime -
                ((st.silenceFrames + 1 : ℕ) : ℚ) * cfg.frameSec - ss) then
            [⟨round3 ss,
              round3 (st.currentTime - ((st.silenceFrames + 1 : ℕ) : ℚ) * cfg.frameSec),
              round3 (st.currentTime -
                ((st.silenceFrames + 1 : ℕ) : ℚ) * cfg.frameSec - ss)⟩]
           else [])
        currentTime := st.currentTime + cfg.frameSec
        silenceFrames := st.silenceFrames + 1
        segmentStart := none } := by
  rw [vadStep]
  simp only [Bool.false_eq_true, if_false, hss]
  rw [if_pos hthr]

theorem vadFinish_some (cfg : VadConfig) (st : VadState) (ss : ℚ)
    (hss : st.segmentStart = some ss) :
    vadFinish cfg st = st.info ++
      (if cfg.minSegmentMs / 1000 ≤ round3 (st.currentTime - ss) then
        [⟨round3 ss, round3 st.currentTime, round3 (st.currentTime - ss)⟩]
       else []) := by
  rw [vadFinish]
  simp only [hss]
  split
  · rfl
  · exact (List.append_nil _).symm

/-- C1: the segmentation state machine closes an open segment exactly when
a non-speech frame takes the consecutive-silence counter to
`min_silence_frames = ⌊min_silence_ms / frame_duration⌋`; the closed
segment ends at `current_time - silence_count * frame_duration_sec`
(backed off by the trailing silence run) and is emitted iff its duration
is at least 0.2 s, while a segment still open at end of stream is closed
at the final `current_time` with no back-off (kept iff its duration is at
least `min_segment_ms / 1000`); `current_time` after `n` full-size frames
is `n * frame_duration / 1000`, a linear function of the frame index. -/
theorem splitAudioVad_closure_spec (cfg : VadConfig) :
    (∀ (a b : ℕ) (m : ℚ),
      ((mkVadConfig a b m).minSilenceFrames : ℤ) = ⌊(a : ℚ) / (b : ℚ)⌋) ∧
    (∀ frames : List Bool,
      (vadRun cfg frames).currentTime = (frames.length : ℚ) * cfg.frameSec) ∧
    (∀ (pre : List Bool) (ss : ℚ),
      (vadRun cfg pre).segmentStart = some ss →
      cfg.minSilenceFrames ≤ (vadRun cfg pre).silenceFrames + 1 →
      (vadRun cfg (pre ++ [false])).segmentStart = none ∧
        (vadRun cfg (pre ++ [false])).info =
          (vadRun cfg pre).info ++
            (if 1/5 ≤ (pre.length : ℚ) * cfg.frameSec -
                  (((vadRun cfg pre).silenceFrames + 1 : ℕ) : ℚ) * cfg.frameSec - ss then
              [⟨ss, (pre.length : ℚ) * cfg.frameSec -
                  (((vadRun cfg pre).silenceFrames + 1 : ℕ) : ℚ) * cfg.frameSec,
                (pre.length : ℚ) * cfg.frameSec -
                  (((vadRun cfg pre).silenceFrames + 1 : ℕ) : ℚ) * cfg.frameSec - ss⟩]
             else [])) ∧
    (∀ (frames : List Bool) (ss : ℚ),
      (vadRun cfg frames).segmentStart = some ss →
      splitAudioVad cfg frames =
        (vadRun cfg frames).info ++
          (if cfg.minSegmentMs / 1000 ≤ (frames.length : ℚ) * cfg.frameSec - ss then
            [⟨ss, (frames.length : ℚ) * cfg.frameSec,
              (frames.length : ℚ) * cfg.frameSec - ss⟩]
           else [])) := by
  refine ⟨?_, vadRun_currentTime cfg, ?_, ?_⟩
  · intro a b m
    show ((a / b : ℕ) : ℤ) = ⌊(a : ℚ) / (b : ℚ)⌋
    rw [show ((a : ℚ)) = (((a : ℤ)) : ℚ) by push_cast; ring,
      Rat.floor_intCast_div_natCast, Int.natCast_div]
  · intro pre ss hss hthr
    have hmsr := vadRun_ms cfg pre
    have hssms := hmsr.2 ss hss
    have hems : isMs ((vadRun cfg pre).currentTime -
        (((vadRun cfg pre).silenceFrames + 1 : ℕ) : ℚ) * cfg.frameSec) :=
      hmsr.1.sub ((isMs_frameSec cfg).natMul _)
    have htime := vadRun_currentTime cfg pre
    rw [vadRun_append_single, vadStep_close cfg _ ss hss hthr,
      round3_eq_self hssms, round3_eq_self hems, round3_eq_self (hems.sub hssms),
      htime]
    exact ⟨rfl, rfl⟩
  · intro frames ss hss
    have hmsr := vadRun_ms cfg frames
    have hssms := hmsr.2 ss hss
    have htime := vadRun_currentTime cfg frames
    rw [splitAudioVad_eq_finish_run, vadFinish_some cfg _ ss hss,
      round3_eq_self hssms, round3_eq_self hmsr.1,
      round3_eq_self (hmsr.1.sub hssms), htime]

theorem splitAudioVad_closure_spec_witness :
    ((mkVadConfig 60 30 200).minSilenceFrames : ℤ) = ⌊(60 : ℚ) / (30 : ℚ)⌋ ∧
      (vadRun (mkVadConfig 60 30 200) ([true, false] ++ [false])).segmentStart = none ∧
      splitAudioVad (mkVadConfig 60 30 200) [true] =
        (vadRun (mkVadConfig 60 30 200) [true]).info ++
          (if (mkVadConfig 60 30 200).minSegmentMs / 1000 ≤
                (([true] : List Bool).length : ℚ) * (mkVadConfig 60 30 200).frameSec - 0 then
            [⟨0, (([true] : List Bool).length : ℚ) * (mkVadConfig 60 30 200).frameSec,
              (([true] : List Bool).length : ℚ) * (mkVadConfig 60 30 200).frameSec - 0⟩]
           else []) := by
  have h := splitAudioVad_closure_spec (mkVadConfig 60 30 200)
  have hss2 : (vadRun (mkVadConfig 60 30 200) [true, false]).segmentStart = some 0 := by
    norm_num [vadRun, vadStep, initState, mkVadConfig, VadConfig.frameSec]
  have hsil : (mkVadConfig 60 30 200).minSilenceFrames ≤
      (vadRun (mkVadConfig 60 30 200) [true, false]).silenceFrames + 1 := by
    norm_num [vadRun, vadStep, initState, mkVadConfig, VadConfig.frameSec]
  have hss1 : (vadRun (mkVadConfig 60 30 200) [true]).segmentStart = some 0 := by
    norm_num [vadRun, vadStep, initState, mkVadConfig, VadConfig.frameSec]
  exact ⟨h.1 60 30 200, (h.2.2.1 [true, false] 0 hss2 hsil).1,
    h.2.2.2 [true] 0 hss1⟩

/-- C2 counterexample: with `min_segment_ms = 0` (any value below 200 ms
works), a stream of three speech frames of 30 ms yields a stream-tail
RawSegment of duration 0.09 s, which violates the claimed unconditional
`duration_sec ≥ 0.2` floor. -/
theorem splitAudioVad_tail_floor_cex :
    splitAudioVad (mkVadConfig 1000 30 0) [true, true, true] = [⟨0, 9/100, 9/100⟩] ∧
      ¬ ((1 : ℚ)/5 ≤ 9/100) := by
  constructor
  · norm_num [splitAudioVad, mkVadConfig, vadStep, vadFinish, initState,
      VadConfig.frameSec, round3]
  · norm_num

/-- C2 (amended): every RawSegment closed by a silence run has
`duration_sec ≥ 0.2` unconditionally; a segment closed at end of stream
has `duration_sec ≥ min_segment_ms / 1000`, so the 0.2 floor holds for
every emitted segment whenever `min_segment_ms ≥ 200` (the default), but
not for smaller configured values. -/
theorem splitAudioVad_duration_floors (cfg : VadConfig) (frames : List Bool) :
    (∀ s ∈ (vadRun cfg frames).info, 1/5 ≤ s.dur) ∧
      (∀ s ∈ splitAudioVad cfg frames,
        1/5 ≤ s.dur ∨ cfg.minSegmentMs / 1000 ≤ s.dur) ∧
      (200 ≤ cfg.minSegmentMs → ∀ s ∈ splitAudioVad cfg frames, 1/5 ≤ s.dur) := by
  have h1 := vadRun_info_dur cfg frames
  have h2 := vadFinish_dur cfg (vadRun cfg frames) h1
  rw [← splitAudioVad_eq_finish_run] at h2
  refine ⟨h1, h2, ?_⟩
  intro hmin s hs
  rcases h2 s hs with h | h
  · exact h
  · have : (1 : ℚ)/5 ≤ cfg.minSegmentMs / 1000 := by linarith
    linarith

theorem splitAudioVad_duration_floors_witness :
    splitAudioVad (mkVadConfig 1000 30 200) (List.replicate 7 true) =
        [⟨0, 21/100, 21/100⟩] ∧
      (1 : ℚ)/5 ≤ (⟨0, 21/100, 21/100⟩ : Seg).dur := by
  have heval : splitAudioVad (mkVadConfig 1000 30 200) (List.replicate 7 true) =
      [⟨0, 21/100, 21/100⟩] := by
    norm_num [splitAudioVad, mkVadConfig, vadStep, vadFinish, initState,
      VadConfig.frameSec, round3, List.replicate]
  have h := splitAudioVad_duration_floors (mkVadConfig 1000 30 200)
    (List.replicate 7 true)
  refine ⟨heval, h.2.2 (by norm_num [mkVadConfig]) ⟨0, 21/100, 21/100⟩ ?_⟩
  rw [heval]
  simp

/-! ### Claim theorems: the Segment Cutter (C3, C8) -/

/-- C3 counterexample: with a single merged range whose extraction fails
(batch call and per-range fallback both fail), no segment file is written
but the manifest still contains the range's row: the manifest row count
(1) differs from the written-file count (0), contradicting the claim that
the failed range's row is omitted. -/
theorem cutAudio_failed_row_not_omitted :
    (cutAudio 10 (fun _ => false) (fun _ => false) [⟨0, 1, 1⟩]).1 = [] ∧
      (cutAudio 10 (fun _ => false) (fun _ => false) [⟨0, 1, 1⟩]).2.length = 1 := by
  decide

/-- C3 (amended): a failed range produces no output file while every other
range is still attempted independently and the job never fails — when the
batched calls fall back, the written files are exactly the ranges whose
individual extraction succeeds — but the manifest row of a failed range is
NOT omitted: `cut_audio` appends every range's row to `segment_data`
before cutting, so the manifest row count always equals the merged-segment
count, not the written-file count. -/
theorem cutAudio_manifest_and_failure_isolation (batchSize : ℕ)
    (batchOk singleOk : ℕ → Bool) (segments : List Seg) :
    (cutAudio batchSize batchOk singleOk segments).2 = manifestRows segments ∧
      (cutAudio batchSize batchOk singleOk segments).2.length = segments.length ∧
      (cutAudio batchSize (fun _ => false) singleOk segments).1 =
        (segments.enum.filter (fun p => singleOk p.1)).map (fun p => p.1 + 1) :=
  ⟨cutAudio_rows batchSize batchOk singleOk segments,
    by rw [cutAudio_rows, manifestRows_length],
    cutAudio_files_batchFail batchSize singleOk segments⟩

/-- C8: RawSegments come out of the state machine in strictly increasing
time order, the Merger preserves strict order, and the manifest rows are
strictly ordered by ascending `start_sec` and ascending 1-based numeric
suffix of `segment_file`. -/
theorem pipeline_ordering (cfg : VadConfig) (hd : 0 < cfg.frameDuration)
    (minLen : ℚ) (batchSize : ℕ) (batchOk singleOk : ℕ → Bool)
    (frames : List Bool) :
    StrictOrder (splitAudioVad cfg frames) ∧
      StrictOrder (mergeSegments minLen (splitAudioVad cfg frames)) ∧
      ((cutAudio batchSize batchOk singleOk
          (mergeSegments minLen (splitAudioVad cfg frames))).2).Chain'
        (fun a b => a.start < b.start ∧ a.idx < b.idx) := by
  obtain ⟨hms, hint, hch⟩ := splitAudioVad_order cfg hd frames
  have hmerge := mergeSegments_chain minLen
    (fun a b c (hab : a < b) (hbc : b < c) => lt_trans hab hbc) hms hint hch
  refine ⟨⟨hint, hch⟩, ⟨hmerge.1, hmerge.2⟩, ?_⟩
  rw [cutAudio_rows]
  exact manifestRowsFrom_chain _ hmerge.1 hmerge.2 0

theorem pipeline_ordering_witness :
    StrictOrder (splitAudioVad (mkVadConfig 60 30 200) [true, false, false]) ∧
      StrictOrder (mergeSegments 0
        (splitAudioVad (mkVadConfig 60 30 200) [true, false, false])) ∧
      ((cutAudio 10 (fun _ => true) (fun _ => true)
          (mergeSegments 0
            (splitAudioVad (mkVadConfig 60 30 200) [true, false, false]))).2).Chain'
        (fun a b => a.start < b.start ∧ a.idx < b.idx) :=
  pipeline_ordering (mkVadConfig 60 30 200) (by norm_num [mkVadConfig]) 0 10
    (fun _ => true) (fun _ => true) [true, false, false]

/-! ### Claim theorems: the Batch Orchestrator (C9) -/

/-- C9: a working copy violating the VAD precondition (channels ≠ 1,
sample width ≠ 16 bit, or sample rate outside {8000, 16000, 32000,
48000}) makes that file's job fail before segmentation; the file is
excluded from the batch's success count, the failure does not change any
other file's outcome, and the orchestrator still completes with a
succeeded/total summary. -/
theorem processAll_precondition_isolation (cfg : VadConfig) (minLen : ℚ)
    (batchSize : ℕ) (batchOk singleOk : ℕ → Bool) (ws : List WavFile)
    (i : ℕ) (hi : i < ws.length) (hbad : ¬ validVad ws[i]) :
    (∃ e, splitAudioVadE cfg ws[i] = Except.error e) ∧
      processWrapper cfg minLen batchSize batchOk singleOk ws[i] = false ∧
      (processAllOutcomes cfg minLen batchSize batchOk singleOk ws)[i]? = some false ∧
      (∀ (w' : WavFile) (j : ℕ), j ≠ i →
        (processAllOutcomes cfg minLen batchSize batchOk singleOk (ws.set i w'))[j]? =
          (processAllOutcomes cfg minLen batchSize batchOk singleOk ws)[j]?) ∧
      (processAll cfg minLen batchSize batchOk singleOk ws).2 = ws.length ∧
      (processAll cfg minLen batchSize batchOk singleOk ws).1 =
        (ws.filter (processWrapper cfg minLen batchSize batchOk singleOk)).length ∧
      (processAll cfg minLen batchSize batchOk singleOk ws).1 < ws.length := by
  have hwrap := processWrapper_not_valid cfg minLen batchSize batchOk singleOk hbad
  have hout : (processAllOutcomes cfg minLen batchSize batchOk singleOk ws)[i]? =
      some false := by
    rw [processAllOutcomes, List.getElem?_map, List.getElem?_eq_getElem hi]
    simp [hwrap]
  refine ⟨splitAudioVadE_not_valid cfg hbad, hwrap, hout, ?_, rfl, ?_, ?_⟩
  · intro w' j hj
    rw [processAllOutcomes, processAllOutcomes, List.getElem?_map, List.getElem?_map,
      List.getElem?_set_ne (fun h => hj h.symm)]
  · rw [processAll, processAllOutcomes]
    rw [List.count_eq_countP, List.countP_map]
    rw [List.countP_eq_length_filter]
    show (List.filter _ ws).length = _
    simp [Function.comp_def]
  · have hmem : false ∈ processAllOutcomes cfg minLen batchSize batchOk singleOk ws := by
      rw [processAllOutcomes]
      exact List.mem_map.mpr ⟨ws[i], List.getElem_mem hi, hwrap⟩
    have hcount := count_true_add_count_false
      (processAllOutcomes cfg minLen batchSize batchOk singleOk ws)
    have hpos : 0 < (processAllOutcomes cfg minLen batchSize batchOk singleOk ws).count
        false := List.count_pos_iff.mpr hmem
    have hlen : (processAllOutcomes cfg minLen batchSize batchOk singleOk ws).length =
        ws.length := by rw [processAllOutcomes, List.length_map]
    show (processAllOutcomes cfg minLen batchSize batchOk singleOk ws).count true <
      ws.length
    omega

theorem processAll_precondition_isolation_witness :
    processWrapper (mkVadConfig 33 30 200) 0 10 (fun _ => true) (fun _ => true)
        (([⟨2, 2, 16000, []⟩] : List WavFile)[0]) = false ∧
      (processAll (mkVadConfig 33 30 200) 0 10 (fun _ => true) (fun _ => true)
          [⟨2, 2, 16000, []⟩]).1 < 1 := by
  have h := processAll_precondition_isolation (mkVadConfig 33 30 200) 0 10
    (fun _ => true) (fun _ => true) [⟨2, 2, 16000, []⟩] 0 (by norm_num) (by decide)
  exact ⟨h.2.1, by simpa using h.2.2.2.2.2.2⟩

end KoreanAudio
